import Mathlib

/-!
Verification development for the `node-redis-delayed-tasks` scheduling engine.

The engine (class `DelayedTasks` in the source) stores each delayed task as a
member of one Redis sorted set, keyed `delayed:<id>`, with the member's score
equal to the task's absolute due time in epoch milliseconds.  `add` validates
its inputs, serializes `{id, due, data}` with `JSON.stringify` and inserts it
with `ZADD`; `poll` captures `now`, `WATCH`es the key, reads the candidates
with `ZRANGEBYSCORE key 0 now`, and, when candidates exist, removes the same
range inside a `MULTI`/`EXEC` transaction; if the transaction aborts because a
concurrent client touched the key, the poll resolves 0 and delivers nothing.
The lifecycle controller (`start`/`stop`/`close`) manages a recurring
`setInterval` timer and, for self-contained clients, the connection itself.

This file embeds those operations as executable Lean definitions and proves
the stated properties about them.  Scores and timestamps are epoch-millisecond
integers, modelled as `Int`; sorted-set members are `String`s.
-/

namespace DelayedTasks

/-! ## Task record codec

The source serializes a task with `JSON.stringify({id, due, data})` and reads
it back with `JSON.parse`, projecting `.id`, `.due`, `.data`.  The payload is
modelled as an opaque string payload (`data : String`); the encoder emits the
exact JSON text `{"id":"<id>","due":<due>,"data":"<data>"}` with `"` and `\`
escaped inside strings, and the decoder parses exactly that shape.  (The
`\uXXXX` escaping `JSON.stringify` applies to control characters is simplified
to passing those characters through verbatim; this does not affect the
round-trip behaviour being modelled.)
-/

/-- A task record: the triple serialized into one sorted-set member. -/
structure TaskRecord where
  id : String
  due : Int
  data : String
deriving DecidableEq, Repr

/-- Decimal digit to its character, as the JS number printer emits. -/
def digitChar (d : Nat) : Char :=
  match d with
  | 0 => '0' | 1 => '1' | 2 => '2' | 3 => '3' | 4 => '4'
  | 5 => '5' | 6 => '6' | 7 => '7' | 8 => '8' | _ => '9'

/-- Numeric value of a decimal digit character. -/
def digVal (c : Char) : Nat := c.toNat - 48

/-- Whether a character is a decimal digit. -/
def isDig (c : Char) : Bool := 48 ≤ c.toNat && c.toNat ≤ 57

/-- Little-endian decimal digits of `n`, with explicit fuel so that the
definition is structurally recursive (and hence evaluates in the kernel). -/
def natDigitsAux : Nat → Nat → List Nat
  | 0, _ => []
  | _ + 1, 0 => []
  | fuel + 1, n + 1 => ((n + 1) % 10) :: natDigitsAux fuel ((n + 1) / 10)

/-- Decimal digit characters of a natural number, most significant first,
printing `0` as `"0"` exactly as the JS number printer does. -/
def natLit (n : Nat) : List Char :=
  if n = 0 then ['0'] else ((natDigitsAux n n).map digitChar).reverse

/-- Decimal digit characters of an integer, with a leading minus sign for
negative values, as `JSON.stringify` prints integral numbers. -/
def intLit (i : Int) : List Char :=
  if i < 0 then '-' :: natLit (-i).toNat else natLit i.toNat

/-- JSON string escaping for one character: `"` and `\` get a backslash. -/
def escChar (c : Char) : List Char :=
  if c = '"' ∨ c = '\\' then ['\\', c] else [c]

/-- JSON string escaping, character by character. -/
def escape (s : List Char) : List Char := (s.map escChar).flatten

/-- Literal text opening the record object up to the id value: `{"id":"`. -/
def segIdKey : List Char := "\x7b\"id\":\"".data

/-- Literal text between the id value's closing quote and the due value:
`,"due":` (the closing quote itself is consumed by the string reader). -/
def dueSep : List Char := ",\"due\":".data

/-- Literal text between the due value and the data value: `,"data":"`. -/
def dataSep : List Char := ",\"data\":\"".data

/-- Encoder: the exact text `JSON.stringify({id, due, data})` produces for a
record whose payload is the string `data`. -/
def encode (r : TaskRecord) : String :=
  ⟨segIdKey ++ escape r.id.data ++ '"' :: dueSep ++ intLit r.due ++
    dataSep ++ escape r.data.data ++ '"' :: ['\x7d']⟩

/-- Reads a JSON string body up to its closing quote, undoing the escaping;
returns the decoded characters and the remaining input. -/
def readString : List Char → Option (List Char × List Char)
  | [] => none
  | c :: rest =>
    if c = '"' then some ([], rest)
    else if c = '\\' then
      match rest with
      | [] => none
      | e :: rest2 => (readString rest2).map fun p => (e :: p.1, p.2)
    else (readString rest).map fun p => (c :: p.1, p.2)

/-- Consumes an expected literal from the input, or fails. -/
def dropLit : List Char → List Char → Option (List Char)
  | [], cs => some cs
  | _ :: _, [] => none
  | l :: ls, c :: cs => if c = l then dropLit ls cs else none

/-- Value of a big-endian list of decimal digits. -/
def vNum (l : List Nat) : Nat := l.foldl (fun a d => 10 * a + d) 0

/-- Reads a run of decimal digits as a natural number. -/
def readNum (cs : List Char) : Nat × List Char :=
  (vNum ((cs.takeWhile isDig).map digVal), cs.dropWhile isDig)

/-- Reads an optionally-signed decimal integer. -/
def readInt (cs : List Char) : Int × List Char :=
  if cs.head? = some '-' then
    let p := readNum cs.tail
    (-(p.1 : Int), p.2)
  else
    let p := readNum cs
    ((p.1 : Int), p.2)

/-- Decoder on character lists: parses exactly the record shape the encoder
emits, i.e. `JSON.parse` restricted to the records the engine writes. -/
def decodeChars (cs : List Char) : Option TaskRecord := do
  let cs1 ← dropLit segIdKey cs
  let (idc, cs2) ← readString cs1
  let cs3 ← dropLit dueSep cs2
  let p := readInt cs3
  let cs5 ← dropLit dataSep p.2
  let (datac, cs6) ← readString cs5
  match cs6 with
  | ['\x7d'] => some ⟨⟨idc⟩, p.1, ⟨datac⟩⟩
  | _ => none

/-- Decoder: `JSON.parse` of a stored member, as the record triple. -/
def decode (s : String) : Option TaskRecord := decodeChars s.data

/-- Decodes every member of a list (`tasks.map(t => JSON.parse(t))`); fails
when any member fails to parse. -/
def decodeAll : List String → Option (List TaskRecord)
  | [] => some []
  | t :: ts => do
    let r ← decode t
    let rs ← decodeAll ts
    pure (r :: rs)

/-! ## The sorted-set store

One Redis sorted set (`this.redisKey`), a finite collection of members with
numeric scores.  Members are unique; Redis orders the set by score, ties
broken by the lexicographic order of the member string, and range queries
return members in that order.  The store is modelled as a list of entries
(the set of member/score pairs) and each range query sorts its result by the
Redis ordering, so no invariant on the representation list is needed.
-/

/-- One sorted-set element: a member string at a score. -/
structure Entry where
  score : Int
  member : String
deriving DecidableEq, Repr

/-- The sorted set held at the engine's Redis key. -/
abbrev Store := List Entry

/-- The Redis sorted-set ordering: by score, ties by member string. -/
def entLe (a b : Entry) : Prop :=
  a.score < b.score ∨ (a.score = b.score ∧ a.member ≤ b.member)

instance : DecidableRel entLe := fun _ _ =>
  inferInstanceAs (Decidable (_ ∨ _))

instance : IsTotal Entry entLe where
  total a b := by
    rcases lt_trichotomy a.score b.score with h | h | h
    · exact Or.inl (Or.inl h)
    · rcases le_total a.member b.member with hm | hm
      · exact Or.inl (Or.inr ⟨h, hm⟩)
      · exact Or.inr (Or.inr ⟨h.symm, hm⟩)
    · exact Or.inr (Or.inl h)

instance : IsTrans Entry entLe where
  trans a b c hab hbc := by
    rcases hab with h1 | ⟨h1, m1⟩
    · rcases hbc with h2 | ⟨h2, _⟩
      · exact Or.inl (h1.trans h2)
      · exact Or.inl (h2 ▸ h1)
    · rcases hbc with h2 | ⟨h2, m2⟩
      · exact Or.inl (h1 ▸ h2)
      · exact Or.inr ⟨h1.trans h2, m1.trans m2⟩

/-- Whether an entry's score lies in the inclusive range `[lo, hi]`
(`ZRANGEBYSCORE` / `ZREMRANGEBYSCORE` bounds are inclusive). -/
def inRange (lo hi : Int) (e : Entry) : Bool :=
  decide (lo ≤ e.score ∧ e.score ≤ hi)

/-- `ZADD key score member`: update the member's score if it is already
present, otherwise insert it; returns the number of new members added. -/
def zadd (st : Store) (score : Int) (member : String) : Store × Nat :=
  if st.any fun e => decide (e.member = member) then
    (st.map fun e => if e.member = member then ⟨score, member⟩ else e, 0)
  else
    (st ++ [⟨score, member⟩], 1)

/-- `ZRANGEBYSCORE key lo hi`: the members scored in `[lo, hi]`, in ascending
score order (ties in lexicographic member order). -/
def zrangebyscore (st : Store) (lo hi : Int) : List String :=
  ((st.filter (inRange lo hi)).insertionSort entLe).map Entry.member

/-- `ZREMRANGEBYSCORE key lo hi`: removes every member scored in `[lo, hi]`;
returns the remaining store and the number of members removed. -/
def zremrangebyscore (st : Store) (lo hi : Int) : Store × Nat :=
  (st.filter fun e => !inRange lo hi e, (st.filter (inRange lo hi)).length)

/-- Modelled from the spec: `rangeByScore(queueKey, -inf, now)` (§4.5), the
range query with no lower bound, stated for comparison with the source's
`zrangebyscore(key, 0, now)`. -/
def zrangebyscoreNegInf (st : Store) (hi : Int) : List String :=
  ((st.filter fun e => decide (e.score ≤ hi)).insertionSort entLe).map
    Entry.member

/-! ## `poll()`

From the source (the `WATCH`/`MULTI` variant):

* capture `now`;
* `WATCH` the key, then `ZRANGEBYSCORE key 0 now` for the candidates;
* if there are candidates, run `ZREMRANGEBYSCORE key 0 now` inside
  `MULTI`/`EXEC`; when the transaction aborts because another client modified
  the key after the `WATCH`, that is not an error: resolve `0` and deliver
  nothing (the candidates stay for a later poll);
* on commit, `JSON.parse` each candidate from the snapshot and invoke the
  callback as `callback(t.data, t.id, t.due)` in snapshot order, resolving the
  removed count reported by `ZREMRANGEBYSCORE`;
* with no candidates, release the watch and resolve `0`.

Concurrent interference between the read and `EXEC` is modelled by an
optional store transformer applied to the key's state in between: `none`
means no other client touched the key (the transaction commits), `some f`
means the key was modified to `f st` (the transaction aborts).  A member the
engine did not write may fail to parse; in the source `JSON.parse` then
throws and the poll's promise never settles, modelled as result `none`.
-/

/-- One recorded callback invocation `callback(data, id, due)`. -/
structure CbCall where
  data : String
  id : String
  due : Int
deriving DecidableEq, Repr

/-- Outcome of one settled `poll()`: the resolved value, the callback
invocations it made in order, and the store it leaves behind. -/
structure PollResult where
  ret : Nat
  calls : List CbCall
  store : Store
deriving DecidableEq, Repr

/-- The store state at `EXEC` time: unchanged, or rewritten by a concurrent
client. -/
def applyMod (st : Store) : Option (Store → Store) → Store
  | none => st
  | some f => f st

/-- The `poll()` algorithm on the watched store `st` at captured time `now`,
with `mod` the concurrent interference (if any) between read and commit. -/
def poll (st : Store) (now : Int) (mod : Option (Store → Store)) :
    Option PollResult :=
  let tasks := zrangebyscore st 0 now
  if tasks.length > 0 then
    match mod with
    | some f => some { ret := 0, calls := [], store := f st }
    | none =>
      let removed := zremrangebyscore st 0 now
      match decodeAll tasks with
      | none => none
      | some recs =>
        some { ret := removed.2,
               calls := recs.map fun r => ⟨r.data, r.id, r.due⟩,
               store := removed.1 }
  else
    some { ret := 0, calls := [], store := applyMod st mod }

/-! ## `add(delayMs, data)`

The source validates `typeof delayMs !== 'number' || delayMs <= 0` (throwing
the invalid-delay `TypeError`) and then `data === undefined || data === null`
(throwing the invalid-data `TypeError`); on success it computes
`delayedTime = now + delayMs`, draws a fresh uuid, serializes
`{id, due: delayedTime, data}` and `ZADD`s it at score `delayedTime`.

JS values are modelled just finely enough for that validation: a value is a
number or not, and a number is either an integral finite value (due times are
epoch-millisecond integers) or one of the non-finite specials `NaN`/`±Infinity`,
which the JS comparison `delayMs <= 0` treats specially (`NaN <= 0` and
`Infinity <= 0` are both `false`, so both pass the check).
-/

/-- A JS number as far as `add`'s validation can distinguish one. -/
inductive JsNum
  | int (n : Int)
  | posInf
  | negInf
  | nan
deriving DecidableEq, Repr

/-- A JS value as far as `add`'s validation can distinguish one. -/
inductive JsVal
  | undef
  | null
  | num (n : JsNum)
  | str (s : String)
  | bool (b : Bool)
deriving DecidableEq, Repr

/-- The JS comparison `n <= 0` (false for `NaN` and `+Infinity`). -/
def jsLeZero : JsNum → Bool
  | .int n => decide (n ≤ 0)
  | .posInf => false
  | .negInf => true
  | .nan => false

/-- Whether a JS number is a finite value. -/
def jsIsFinite : JsNum → Bool
  | .int _ => true
  | _ => false

/-- Whether a JS value is of number type (`typeof v === 'number'`). -/
def jsIsNumber : JsVal → Bool
  | .num _ => true
  | _ => false

/-- The two validation failures `add` can raise. -/
inductive AddErr
  | invalidDelay
  | invalidData
deriving DecidableEq, Repr

/-- The validation prefix of `add`, exactly as the source orders it: first
`typeof delayMs !== 'number' || delayMs <= 0`, then
`data === undefined || data === null`; `none` means validation passed. -/
def addCheck (delayMs data : JsVal) : Option AddErr :=
  match delayMs with
  | .num n =>
    if jsLeZero n then some .invalidDelay
    else if data = .undef ∨ data = .null then some .invalidData
    else none
  | _ => some .invalidDelay

/-- The full `add` on integral inputs: validation, then
`delayedTime = now + delayMs`, serialization, `ZADD`.  `data = none` models a
nullish (`undefined`/`null`) payload, `some d` the payload string.  The first
component is the store after the call (unchanged on a validation failure). -/
def addRun (st : Store) (now : Int) (newId : String) (delayMs : Int)
    (data : Option String) : Store × Except AddErr String :=
  if delayMs ≤ 0 then (st, .error .invalidDelay)
  else
    match data with
    | none => (st, .error .invalidData)
    | some d =>
      let delayedTime := now + delayMs
      let task := encode { id := newId, due := delayedTime, data := d }
      ((zadd st delayedTime task).1, .ok newId)

/-! ## Lifecycle controller

From the current source variant: the constructor records whether the Redis
client is self-contained (`selfContainedResis`, created from configuration)
or supplied by the caller; `start()` returns `false` without creating a timer
when the client is not connected (`!this.redisClient.isReady`), otherwise it
stores a fresh `setInterval` handle over the previous one (without clearing
it) and returns `true`; `stop()` clears the stored handle; `close()` calls
`stop()` and then, only for a self-contained client that `isReady`,
disconnects it and sets `this.redisClient = null`.

The JS interval registry is modelled explicitly: the list of live interval
ids plus a fresh-id counter.  Reading a property of the nulled client throws
a `TypeError` in JS, modelled as an `Except` error.
-/

/-- What the engine sees of a Redis client: whether it is connected. -/
structure Client where
  isReady : Bool
deriving DecidableEq, Repr

/-- The engine instance fields the lifecycle methods touch.  `redisClient =
none` models the `null` that `close()` assigns. -/
structure Engine where
  selfContainedResis : Bool
  redisClient : Option Client
  pollIntervalId : Option Nat
deriving DecidableEq, Repr

/-- The JS runtime's live interval timers: their ids, and the next fresh id. -/
structure TimerSys where
  active : List Nat
  nextId : Nat
deriving DecidableEq, Repr

/-- An engine instance together with the runtime's timer registry. -/
structure LState where
  eng : Engine
  timers : TimerSys
deriving DecidableEq, Repr

/-- The thrown-exception outcomes the lifecycle model can produce. -/
inductive JsErr
  | typeError
deriving DecidableEq, Repr

/-- `setInterval(...)`: registers a new recurring timer, returning its id. -/
def setInterval (t : TimerSys) : TimerSys × Nat :=
  ({ active := t.active ++ [t.nextId], nextId := t.nextId + 1 }, t.nextId)

/-- `clearInterval(h)`: cancels the timer `h`; a `null` handle is a no-op. -/
def clearInterval (t : TimerSys) : Option Nat → TimerSys
  | none => t
  | some i => { t with active := t.active.filter fun j => decide (j ≠ i) }

/-- `start()`: fails (throws) on a nulled client; returns `false` and does
nothing when the client is not ready; otherwise overwrites the stored handle
with a fresh `setInterval` and returns `true`. -/
def start (s : LState) : Except JsErr (LState × Bool) :=
  match s.eng.redisClient with
  | none => .error .typeError
  | some c =>
    if c.isReady then
      let ti := setInterval s.timers
      .ok ({ eng := { s.eng with pollIntervalId := some ti.2 },
             timers := ti.1 }, true)
    else
      .ok (s, false)

/-- `stop()`: `clearInterval(this.pollIntervalId)` then null the handle. -/
def stop (s : LState) : LState :=
  { eng := { s.eng with pollIntervalId := none },
    timers := clearInterval s.timers s.eng.pollIntervalId }

/-- `close()`: `stop()`, then — only for a self-contained client — read
`this.redisClient.isReady` (throwing on the nulled client) and, when ready,
disconnect and null the client. -/
def close (s : LState) : Except JsErr LState :=
  let s1 := stop s
  if s1.eng.selfContainedResis then
    match s1.eng.redisClient with
    | none => .error .typeError
    | some c =>
      if c.isReady then
        .ok { s1 with eng := { s1.eng with redisClient := none } }
      else
        .ok s1
  else
    .ok s1

/-! ## Codec round-trip lemmas -/

theorem dropLit_append (l cs : List Char) : dropLit l (l ++ cs) = some cs := by
  induction l with
  | nil => rfl
  | cons c ls ih => simp [dropLit, ih]

theorem escape_nil : escape [] = [] := rfl

theorem escape_cons_esc {c : Char} (h : c = '"' ∨ c = '\\') (t : List Char) :
    escape (c :: t) = '\\' :: c :: escape t := by
  simp [escape, escChar, h]

theorem escape_cons_plain {c : Char} (h : ¬(c = '"' ∨ c = '\\')) (t : List Char) :
    escape (c :: t) = c :: escape t := by
  simp [escape, escChar, h]

theorem readString_quote (rest : List Char) :
    readString ('"' :: rest) = some ([], rest) := by
  rw [readString.eq_def]; simp

theorem readString_backslash (e : Char) (rest : List Char) :
    readString ('\\' :: e :: rest)
      = (readString rest).map fun p => (e :: p.1, p.2) := by
  rw [readString.eq_def]; simp

theorem readString_plain {c : Char} (h1 : c ≠ '"') (h2 : c ≠ '\\')
    (rest : List Char) :
    readString (c :: rest) = (readString rest).map fun p => (c :: p.1, p.2) := by
  rw [readString.eq_def]; simp [h1, h2]

theorem readString_escape (s rest : List Char) :
    readString (escape s ++ '"' :: rest) = some (s, rest) := by
  induction s with
  | nil =>
    rw [escape_nil, List.nil_append]
    exact readString_quote rest
  | cons c t ih =>
    by_cases hc : c = '"' ∨ c = '\\'
    · rw [escape_cons_esc hc, List.cons_append, List.cons_append,
        readString_backslash, ih]
      rfl
    · have h1 : c ≠ '"' := fun h => hc (Or.inl h)
      have h2 : c ≠ '\\' := fun h => hc (Or.inr h)
      rw [escape_cons_plain hc, List.cons_append, readString_plain h1 h2, ih]
      rfl

theorem natDigitsAux_lt (fuel n : Nat) : ∀ d ∈ natDigitsAux fuel n, d < 10 := by
  induction fuel generalizing n with
  | zero => intro d hd; simp [natDigitsAux] at hd
  | succ f ih =>
    cases n with
    | zero => intro d hd; simp [natDigitsAux] at hd
    | succ m =>
      intro d hd
      simp only [natDigitsAux, List.mem_cons] at hd
      rcases hd with h | h
      · omega
      · exact ih _ d h

theorem digVal_digitChar {d : Nat} (h : d < 10) : digVal (digitChar d) = d := by
  interval_cases d <;> decide

theorem isDig_digitChar {d : Nat} (h : d < 10) : isDig (digitChar d) = true := by
  interval_cases d <;> decide

theorem vNum_append (l : List Nat) (d : Nat) : vNum (l ++ [d]) = 10 * vNum l + d := by
  simp [vNum, List.foldl_append]

theorem vNum_reverse_digits : ∀ fuel n, n ≤ fuel →
    vNum ((natDigitsAux fuel n).reverse) = n := by
  intro fuel
  induction fuel with
  | zero =>
    intro n h
    have : n = 0 := by omega
    subst this; rfl
  | succ f ih =>
    intro n h
    cases n with
    | zero => rfl
    | succ m =>
      have hle : (m + 1) / 10 ≤ f := by omega
      simp only [natDigitsAux, List.reverse_cons, vNum_append, ih _ hle]
      omega

theorem map_digVal_digitChar : ∀ l : List Nat, (∀ d ∈ l, d < 10) →
    l.map (fun d => digVal (digitChar d)) = l := by
  intro l h
  induction l with
  | nil => rfl
  | cons d t ih =>
    have hd : d < 10 := h d (by simp)
    have ht : ∀ x ∈ t, x < 10 := fun x hx => h x (by simp [hx])
    simp [digVal_digitChar hd, ih ht]

theorem vNum_natLit (n : Nat) : vNum ((natLit n).map digVal) = n := by
  rcases Nat.eq_zero_or_pos n with h | h
  · subst h; decide
  · have hne : n ≠ 0 := by omega
    rw [natLit, if_neg hne, List.map_reverse, List.map_map]
    have heq : (natDigitsAux n n).map (digVal ∘ digitChar) = natDigitsAux n n := by
      have := map_digVal_digitChar (natDigitsAux n n) (natDigitsAux_lt n n)
      simpa [Function.comp] using this
    rw [heq]
    exact vNum_reverse_digits n n le_rfl

theorem natLit_isDig (n : Nat) : ∀ c ∈ natLit n, isDig c = true := by
  intro c hc
  rw [natLit] at hc
  split at hc
  · simp at hc; subst hc; decide
  · simp only [List.mem_reverse, List.mem_map] at hc
    obtain ⟨d, hd, rfl⟩ := hc
    exact isDig_digitChar (natDigitsAux_lt _ _ d hd)

theorem natLit_ne_nil (n : Nat) : natLit n ≠ [] := by
  rw [natLit]
  split
  · simp
  · next h =>
    cases n with
    | zero => exact absurd rfl h
    | succ m => simp [natDigitsAux]

theorem takeWhile_dropWhile_append (p : Char → Bool) :
    ∀ l₁ l₂ : List Char, (∀ c ∈ l₁, p c = true) →
    (∀ c, l₂.head? = some c → p c = false) →
    (l₁ ++ l₂).takeWhile p = l₁ ∧ (l₁ ++ l₂).dropWhile p = l₂ := by
  intro l₁
  induction l₁ with
  | nil =>
    intro l₂ _ h2
    cases l₂ with
    | nil => simp
    | cons c t =>
      have hc := h2 c rfl
      simp [List.takeWhile_cons, List.dropWhile_cons, hc]
  | cons c t ih =>
    intro l₂ h1 h2
    have hc : p c = true := h1 c (by simp)
    have ht := ih l₂ (fun x hx => h1 x (by simp [hx])) h2
    simp [List.takeWhile_cons, List.dropWhile_cons, hc, ht.1, ht.2]

theorem readNum_append (n : Nat) (rest : List Char)
    (hrest : ∀ c, rest.head? = some c → isDig c = false) :
    readNum (natLit n ++ rest) = (n, rest) := by
  obtain ⟨ht, hd⟩ :=
    takeWhile_dropWhile_append isDig (natLit n) rest (natLit_isDig n) hrest
  simp [readNum, ht, hd, vNum_natLit]

theorem readInt_append (i : Int) (rest : List Char)
    (hrest : ∀ c, rest.head? = some c → isDig c = false) :
    readInt (intLit i ++ rest) = (i, rest) := by
  by_cases hi : i < 0
  · have hlit : intLit i = '-' :: natLit (-i).toNat := by simp [intLit, hi]
    rw [hlit, List.cons_append]
    rw [readInt]
    simp only [List.head?_cons, List.tail_cons, if_pos rfl]
    rw [readNum_append (-i).toNat rest hrest]
    have : (((-i).toNat : Int)) = -i := Int.toNat_of_nonneg (by omega)
    simp [this]
  · have h0 : (0 : Int) ≤ i := by omega
    have hlit : intLit i = natLit i.toNat := by simp [intLit, hi]
    rw [hlit]
    have hcond : ¬ ((natLit i.toNat ++ rest).head? = some '-') := by
      obtain ⟨c, t, hct⟩ := List.exists_cons_of_ne_nil (natLit_ne_nil i.toNat)
      rw [hct, List.cons_append, List.head?_cons]
      intro h
      have hcd : isDig c = true := natLit_isDig i.toNat c (by simp [hct])
      rw [Option.some.injEq] at h
      subst h
      exact absurd hcd (by decide)
    rw [readInt, if_neg hcond]
    rw [readNum_append i.toNat rest hrest]
    simp [Int.toNat_of_nonneg h0]

theorem string_mk_data (s : String) : String.mk s.data = s := by
  cases s; rfl

theorem decode_encode (r : TaskRecord) : decode (encode r) = some r := by
  have hshape :
      segIdKey ++ escape r.id.data ++ '"' :: dueSep ++ intLit r.due ++
        dataSep ++ escape r.data.data ++ '"' :: ['\x7d']
      = segIdKey ++ (escape r.id.data ++ '"' ::
          (dueSep ++ (intLit r.due ++ (dataSep ++
            (escape r.data.data ++ '"' :: ['\x7d']))))) := by
    simp [List.append_assoc]
  have hrest : ∀ c : Char,
      (dataSep ++ (escape r.data.data ++ '"' :: ['\x7d'])).head? = some c →
      isDig c = false := by
    intro c hc
    have : c = ',' := by
      have hd : dataSep = ',' :: "\"data\":\"".data := rfl
      rw [hd, List.cons_append, List.head?_cons, Option.some.injEq] at hc
      exact hc.symm
    subst this; decide
  rw [decode, encode]
  show decodeChars (segIdKey ++ escape r.id.data ++ '"' :: dueSep ++
      intLit r.due ++ dataSep ++ escape r.data.data ++ '"' :: ['\x7d']) = some r
  rw [decodeChars, hshape, dropLit_append]
  simp only [Option.bind_eq_bind, Option.some_bind]
  rw [readString_escape]
  simp only [Option.some_bind]
  rw [dropLit_append]
  simp only [Option.some_bind]
  rw [readInt_append r.due _ hrest]
  simp only [Option.some_bind]
  rw [dropLit_append]
  simp only [Option.some_bind]
  rw [readString_escape]
  simp only [Option.some_bind]

/-! ## Store lemmas -/

theorem mem_zrangebyscore {st : Store} {lo hi : Int} {m : String} :
    m ∈ zrangebyscore st lo hi ↔
      ∃ e, e ∈ st ∧ e.member = m ∧ lo ≤ e.score ∧ e.score ≤ hi := by
  simp only [zrangebyscore, List.mem_map, List.mem_insertionSort,
    List.mem_filter, inRange, decide_eq_true_eq]
  tauto

theorem mem_zrem_store {st : Store} {lo hi : Int} {e : Entry} :
    e ∈ (zremrangebyscore st lo hi).1 ↔
      e ∈ st ∧ ¬(lo ≤ e.score ∧ e.score ≤ hi) := by
  constructor
  · intro h
    have hm := List.mem_filter.mp h
    refine ⟨hm.1, ?_⟩
    have hb := hm.2
    simp only [inRange, Bool.not_eq_true', decide_eq_false_iff_not] at hb
    exact hb
  · rintro ⟨h1, h2⟩
    refine List.mem_filter.mpr ⟨h1, ?_⟩
    simp only [inRange, Bool.not_eq_true', decide_eq_false_iff_not]
    exact h2

theorem zrem_count (st : Store) (lo hi : Int) :
    (zremrangebyscore st lo hi).2 = (zrangebyscore st lo hi).length := by
  simp [zremrangebyscore, zrangebyscore]

theorem entLe_score {a b : Entry} (h : entLe a b) : a.score ≤ b.score := by
  rcases h with h | ⟨h, _⟩
  · omega
  · omega

theorem decodeAll_some_of_forall :
    ∀ l : List String, (∀ a ∈ l, ∃ b, decode a = some b) →
    ∃ bs, decodeAll l = some bs ∧
      List.Forall₂ (fun a b => decode a = some b) l bs := by
  intro l h
  induction l with
  | nil => exact ⟨[], rfl, .nil⟩
  | cons a t ih =>
    obtain ⟨b, hb⟩ := h a (by simp)
    obtain ⟨bs, hbs, hf⟩ := ih fun x hx => h x (by simp [hx])
    exact ⟨b :: bs, by simp [decodeAll, hb, hbs], .cons hb hf⟩

theorem forall2_due_eq :
    ∀ {es : List Entry} {recs : List TaskRecord},
    List.Forall₂ (fun e r => decode e.member = some r) es recs →
    (∀ e ∈ es, ∀ r, decode e.member = some r → r.due = e.score) →
    recs.map TaskRecord.due = es.map Entry.score := by
  intro es recs hf
  induction hf with
  | nil => intro _; rfl
  | @cons e r es' recs' h _ ih =>
    intro hwf
    have h1 : r.due = e.score := hwf e (by simp) r h
    have h2 := ih fun x hx rx hrx => hwf x (by simp [hx]) rx hrx
    simp [h1, h2]

/-! ## `poll` branch equations -/

theorem poll_pos_none (st : Store) (now : Int)
    (h : (zrangebyscore st 0 now).length > 0) :
    poll st now none =
      match decodeAll (zrangebyscore st 0 now) with
      | none => none
      | some recs =>
        some { ret := (zremrangebyscore st 0 now).2,
               calls := recs.map fun r => ⟨r.data, r.id, r.due⟩,
               store := (zremrangebyscore st 0 now).1 } := by
  simp only [poll]
  rw [if_pos h]

theorem poll_pos_abort (st : Store) (now : Int) (f : Store → Store)
    (h : (zrangebyscore st 0 now).length > 0) :
    poll st now (some f) = some { ret := 0, calls := [], store := f st } := by
  simp only [poll]
  rw [if_pos h]

theorem poll_empty (st : Store) (now : Int) (mod : Option (Store → Store))
    (h : ¬ (zrangebyscore st 0 now).length > 0) :
    poll st now mod = some { ret := 0, calls := [], store := applyMod st mod } := by
  simp only [poll]
  rw [if_neg h]

/-- Entries of the sorted candidate snapshot are entries of the store. -/
theorem mem_sortedFilter {st : Store} {lo hi : Int} {e : Entry}
    (he : e ∈ (st.filter (inRange lo hi)).insertionSort entLe) : e ∈ st :=
  List.mem_of_mem_filter ((List.mem_insertionSort entLe).mp he)

/-- An empty candidate list means no entry of the store is in range. -/
theorem filter_eq_nil_of_zrange_nil {st : Store} {lo hi : Int}
    (h : zrangebyscore st lo hi = []) : st.filter (inRange lo hi) = [] := by
  have h1 : (st.filter (inRange lo hi)).insertionSort entLe = [] :=
    List.map_eq_nil_iff.mp h
  have h2 := List.perm_insertionSort entLe (st.filter (inRange lo hi))
  rw [h1] at h2
  exact h2.symm.eq_nil

/-! ## Claims -/

/-- C9: for every (id, due, data) triple representable in the structured
text format, decoding the encoded record yields the original triple exactly:
`decode (encode r) = some r`. -/
theorem C9_codec_roundtrip (r : TaskRecord) : decode (encode r) = some r :=
  decode_encode r

/-- C1: a `poll()` whose conditional remove transaction commits (no
concurrent modification) settles; the callback is invoked exactly once per
record of the step-3 snapshot, in snapshot order — ascending due-time
order — with arguments `(data, id, due)`; and the poll resolves the removed
count reported by the store, leaving the store without the removed range.
The hypothesis says the store's members are well-formed engine-written
records: each decodes, and its embedded due time equals its score. -/
theorem C1_poll_commit_delivers (st : Store) (now : Int)
    (hwf : ∀ e ∈ st, ∃ r, decode e.member = some r ∧ r.due = e.score) :
    ∃ res recs,
      poll st now none = some res ∧
      decodeAll (zrangebyscore st 0 now) = some recs ∧
      res.calls = recs.map (fun r => { data := r.data, id := r.id, due := r.due }) ∧
      List.Sorted (· ≤ ·) (res.calls.map CbCall.due) ∧
      res.ret = (zremrangebyscore st 0 now).2 ∧
      res.store = (zremrangebyscore st 0 now).1 := by
  have hdecm : ∀ m ∈ zrangebyscore st 0 now, ∃ r, decode m = some r := by
    intro m hm
    obtain ⟨e, he, hme, _, _⟩ := mem_zrangebyscore.mp hm
    obtain ⟨r, hr, _⟩ := hwf e he
    exact ⟨r, hme ▸ hr⟩
  obtain ⟨recs, hrecs, hf⟩ := decodeAll_some_of_forall _ hdecm
  have hf' : List.Forall₂ (fun (e : Entry) r => decode e.member = some r)
      ((st.filter (inRange 0 now)).insertionSort entLe) recs := by
    have := hf
    rw [zrangebyscore] at this
    exact List.forall₂_map_left_iff.mp this
  have hwf' : ∀ e ∈ (st.filter (inRange 0 now)).insertionSort entLe,
      ∀ r, decode e.member = some r → r.due = e.score := by
    intro e he r hr
    obtain ⟨r0, hr0, hdue⟩ := hwf e (mem_sortedFilter he)
    have : r = r0 := Option.some.inj (hr.symm.trans hr0)
    rw [this]; exact hdue
  have hdues : recs.map TaskRecord.due =
      ((st.filter (inRange 0 now)).insertionSort entLe).map Entry.score :=
    forall2_due_eq hf' hwf'
  have hsorted : List.Sorted (· ≤ ·) (recs.map TaskRecord.due) := by
    rw [hdues]
    exact List.Pairwise.map Entry.score (fun _ _ hab => entLe_score hab)
      (List.sorted_insertionSort entLe _)
  by_cases hlen : (zrangebyscore st 0 now).length > 0
  · rw [poll_pos_none st now hlen, hrecs]
    refine ⟨_, recs, rfl, rfl, rfl, ?_, rfl, rfl⟩
    have : (recs.map fun r =>
        ({ data := r.data, id := r.id, due := r.due } : CbCall)).map CbCall.due
        = recs.map TaskRecord.due := by
      simp [List.map_map, Function.comp]
    rw [this]
    exact hsorted
  · rw [poll_empty st now none hlen]
    have hnil : zrangebyscore st 0 now = [] := by
      cases h : zrangebyscore st 0 now with
      | nil => rfl
      | cons a t => rw [h] at hlen; simp at hlen
    have hfilt : st.filter (inRange 0 now) = [] := filter_eq_nil_of_zrange_nil hnil
    have hrecs0 : recs = [] := by
      rw [hnil] at hf
      cases hf
      rfl
    subst hrecs0
    refine ⟨_, [], rfl, hrecs, rfl, by simp, ?_, ?_⟩
    · rw [zrem_count, hnil]
      rfl
    · show st = (zremrangebyscore st 0 now).1
      have hall : ∀ e ∈ st, inRange 0 now e = false := by
        intro e he
        by_contra hne
        have : e ∈ st.filter (inRange 0 now) :=
          List.mem_filter.mpr ⟨he, by revert hne; cases inRange 0 now e <;> simp⟩
        rw [hfilt] at this
        simp at this
      rw [zremrangebyscore]
      exact (List.filter_eq_self.mpr fun e he => by simp [hall e he]).symm

/-- Witness for C1 at a concrete two-record store. -/
theorem C1_witness :
    ∃ res recs,
      poll [⟨3, encode ⟨"b", 3, "q"⟩⟩, ⟨7, encode ⟨"a", 7, "p"⟩⟩] 10 none
        = some res ∧
      decodeAll (zrangebyscore
        [⟨3, encode ⟨"b", 3, "q"⟩⟩, ⟨7, encode ⟨"a", 7, "p"⟩⟩] 0 10)
        = some recs ∧
      res.calls = recs.map (fun r => { data := r.data, id := r.id, due := r.due }) ∧
      List.Sorted (· ≤ ·) (res.calls.map CbCall.due) ∧
      res.ret = (zremrangebyscore
        [⟨3, encode ⟨"b", 3, "q"⟩⟩, ⟨7, encode ⟨"a", 7, "p"⟩⟩] 0 10).2 ∧
      res.store = (zremrangebyscore
        [⟨3, encode ⟨"b", 3, "q"⟩⟩, ⟨7, encode ⟨"a", 7, "p"⟩⟩] 0 10).1 := by
  apply C1_poll_commit_delivers
  intro e he
  simp only [List.mem_cons, List.not_mem_nil, or_false] at he
  rcases he with rfl | rfl
  · exact ⟨_, decode_encode ⟨"b", 3, "q"⟩, rfl⟩
  · exact ⟨_, decode_encode ⟨"a", 7, "p"⟩, rfl⟩

/-- C2: a poll whose conditional remove transaction aborts because a
concurrent client modified the queue key between the read and the commit
(here: a concurrent `add` of a fresh member) resolves 0, invokes no
callback, and every record of its candidate snapshot stays in the store,
still inside the candidate range of any later poll. -/
theorem C2_abort_defers (st : Store) (now sc nowLater : Int) (m : String)
    (hfresh : ∀ e ∈ st, e.member ≠ m)
    (hne : zrangebyscore st 0 now ≠ [])
    (hlater : now ≤ nowLater) :
    (∀ f : Store → Store, poll st now (some f)
        = some { ret := 0, calls := [], store := f st }) ∧
    poll st now (some fun s => (zadd s sc m).1)
      = some { ret := 0, calls := [], store := st ++ [⟨sc, m⟩] } ∧
    ∀ x ∈ zrangebyscore st 0 now,
      x ∈ zrangebyscore (st ++ [⟨sc, m⟩]) 0 nowLater := by
  have hlen : (zrangebyscore st 0 now).length > 0 := by
    cases h : zrangebyscore st 0 now with
    | nil => exact absurd h hne
    | cons a t => simp
  have hany : (st.any fun e => decide (e.member = m)) = false := by
    rw [List.any_eq_false]
    intro e he
    simp [hfresh e he]
  have hzadd : (zadd st sc m).1 = st ++ [⟨sc, m⟩] := by
    simp [zadd, hany]
  refine ⟨fun f => poll_pos_abort st now f hlen, ?_, ?_⟩
  · rw [poll_pos_abort st now _ hlen, hzadd]
  · intro x hx
    obtain ⟨e, he, hme, h0, hn⟩ := mem_zrangebyscore.mp hx
    exact mem_zrangebyscore.mpr
      ⟨e, List.mem_append_left _ he, hme, h0, by omega⟩

/-- Witness for C2: one due record, a fresh member added concurrently. -/
theorem C2_witness :
    (∀ f : Store → Store, poll [⟨5, "a"⟩] 10 (some f)
        = some { ret := 0, calls := [], store := f [⟨5, "a"⟩] }) ∧
    poll [⟨5, "a"⟩] 10 (some fun s => (zadd s 12 "b").1)
      = some { ret := 0, calls := [],
               store := [⟨5, "a"⟩] ++ [⟨12, "b"⟩] } ∧
    ∀ x ∈ zrangebyscore [⟨5, "a"⟩] 0 10,
      x ∈ zrangebyscore ([⟨5, "a"⟩] ++ [⟨12, "b"⟩]) 0 10 :=
  C2_abort_defers [⟨5, "a"⟩] 10 12 10 "b" (by decide) (by decide) (by decide)

/-- C3 as stated is false: the poll's candidate range starts at score 0, not
at negative infinity.  A record at score -1 satisfies `score ≤ now` but is
neither read as a candidate nor removed by a committing poll. -/
theorem C3_counterexample :
    ((-1 : Int) ≤ 5) ∧
    zrangebyscore [⟨-1, "a"⟩] 0 5 = [] ∧
    poll [⟨-1, "a"⟩] 5 none
      = some { ret := 0, calls := [], store := [⟨-1, "a"⟩] } := by
  refine ⟨by decide, by decide, by decide⟩

/-- C3 (amended): the candidate set is exactly the members scored in the
inclusive range `[0, now]` — in particular a record scored exactly at `now`
is included — and the conditional remove removes exactly the same range,
its removed count equal to the snapshot's size. -/
theorem C3_amended_range (st : Store) (now : Int) :
    (∀ m, m ∈ zrangebyscore st 0 now ↔
      ∃ e, e ∈ st ∧ e.member = m ∧ 0 ≤ e.score ∧ e.score ≤ now) ∧
    (∀ e, e ∈ (zremrangebyscore st 0 now).1 ↔
      e ∈ st ∧ ¬(0 ≤ e.score ∧ e.score ≤ now)) ∧
    (zremrangebyscore st 0 now).2 = (zrangebyscore st 0 now).length ∧
    (∀ e ∈ st, 0 ≤ now → e.score = now → e.member ∈ zrangebyscore st 0 now) := by
  refine ⟨fun m => mem_zrangebyscore, fun e => mem_zrem_store,
    zrem_count st 0 now, ?_⟩
  intro e he h0 hn
  exact mem_zrangebyscore.mpr ⟨e, he, rfl, by omega, by omega⟩

/-- Witness for the amended C3: a record exactly at `now` is a candidate. -/
theorem C3_amended_witness : "a" ∈ zrangebyscore [⟨5, "a"⟩] 0 5 :=
  (C3_amended_range [⟨5, "a"⟩] 5).2.2.2 ⟨5, "a"⟩ (by decide) (by decide) rfl

/-- C8: a poll that finds no due records resolves 0, invokes no callback and
leaves the store untouched; and a record whose due time exceeds the captured
`now` is never part of the claimed candidate snapshot and is still in the
store after any settled uncontended poll. -/
theorem C8_empty_and_nondue (st : Store) (now : Int)
    (hnd : (st.map Entry.member).Nodup) :
    (zrangebyscore st 0 now = [] →
      poll st now none = some { ret := 0, calls := [], store := st }) ∧
    (∀ e ∈ st, now < e.score →
      e.member ∉ zrangebyscore st 0 now ∧
      ∀ res, poll st now none = some res → e ∈ res.store) := by
  constructor
  · intro h
    rw [poll_empty st now none (by simp [h])]
    rfl
  · intro e he hlt
    constructor
    · intro hmem
      obtain ⟨e', he', hme, h0, hn⟩ := mem_zrangebyscore.mp hmem
      have : e' = e := List.inj_on_of_nodup_map hnd he' he hme
      subst this
      omega
    · intro res hres
      by_cases hlen : (zrangebyscore st 0 now).length > 0
      · rw [poll_pos_none st now hlen] at hres
        cases hdec : decodeAll (zrangebyscore st 0 now) with
        | none => rw [hdec] at hres; cases hres
        | some recs =>
          rw [hdec] at hres
          have hr := Option.some.inj hres
          rw [← hr]
          exact mem_zrem_store.mpr ⟨he, by omega⟩
      · rw [poll_empty st now none hlen] at hres
        have hr := Option.some.inj hres
        rw [← hr]
        exact he

/-- Witness for C8: one not-yet-due record at score 20, polled at 10. -/
theorem C8_witness :
    (zrangebyscore [⟨20, "c"⟩] 0 10 = [] →
      poll [⟨20, "c"⟩] 10 none
        = some { ret := 0, calls := [], store := [⟨20, "c"⟩] }) ∧
    (∀ e ∈ ([⟨20, "c"⟩] : Store), (10 : Int) < e.score →
      e.member ∉ zrangebyscore [⟨20, "c"⟩] 0 10 ∧
      ∀ res, poll [⟨20, "c"⟩] 10 none = some res → e ∈ res.store) :=
  C8_empty_and_nondue [⟨20, "c"⟩] 10 (by decide)

/-- C4 as stated is false: the source's validation is
`typeof delayMs !== 'number' || delayMs <= 0`, and the non-finite numbers
`+Infinity` and `NaN` compare `<= 0` as `false`, so both pass validation
even though neither is a strictly positive finite numeric value. -/
theorem C4_counterexample :
    jsIsFinite .posInf = false ∧ addCheck (.num .posInf) (.str "x") = none ∧
    jsIsFinite .nan = false ∧ addCheck (.num .nan) (.str "x") = none := by
  decide

/-- C4 (amended): `add` fails with the invalid-delay error when `delayMs` is
not of number type or compares `<= 0` under JS comparison (`NaN` and
`+Infinity` compare `false` and therefore pass); it fails with the
invalid-data error when `delayMs` passes and `data` is undefined or null;
and in every failure case the store is left unmutated. -/
theorem C4_amended_validation :
    (∀ d data, jsIsNumber d = false → addCheck d data = some .invalidDelay) ∧
    (∀ n data, jsLeZero n = true → addCheck (.num n) data = some .invalidDelay) ∧
    (∀ n data, jsLeZero n = false → (data = .undef ∨ data = .null) →
      addCheck (.num n) data = some .invalidData) ∧
    (∀ st now newId delayMs data, delayMs ≤ 0 →
      addRun st now newId delayMs data = (st, .error .invalidDelay)) ∧
    (∀ st now newId delayMs, 0 < delayMs →
      addRun st now newId delayMs none = (st, .error .invalidData)) := by
  refine ⟨?_, ?_, ?_, ?_, ?_⟩
  · intro d data hd
    cases d <;> simp_all [addCheck, jsIsNumber]
  · intro n data h
    simp [addCheck, h]
  · intro n data h hd
    rcases hd with rfl | rfl <;> simp [addCheck, h]
  · intro st now newId delayMs data h
    simp [addRun, h]
  · intro st now newId delayMs h
    simp [addRun, show ¬(delayMs ≤ 0) by omega]

/-- Witness for the amended C4 at concrete inputs of each failure class. -/
theorem C4_witness :
    addCheck (.str "s") (.str "x") = some .invalidDelay ∧
    addCheck (.num (.int 0)) (.str "x") = some .invalidDelay ∧
    addCheck (.num (.int 5)) .null = some .invalidData ∧
    addRun [] 0 "i" (-3) (some "d") = ([], .error .invalidDelay) ∧
    addRun [] 0 "i" 3 none = ([], .error .invalidData) :=
  ⟨C4_amended_validation.1 (.str "s") (.str "x") (by decide),
   C4_amended_validation.2.1 (.int 0) (.str "x") (by decide),
   C4_amended_validation.2.2.1 (.int 5) .null (by decide) (Or.inr rfl),
   C4_amended_validation.2.2.2.1 [] 0 "i" (-3) (some "d") (by decide),
   C4_amended_validation.2.2.2.2 [] 0 "i" 3 (by decide)⟩

/-- C10: a successful `add` stores its record at score `due = now + delayMs`
with `delayMs > 0`, so the score strictly exceeds the insertion-time clock
and is strictly positive (the clock being nonnegative); on stores whose
scores are all nonnegative — as engine-written stores are — the poll's lower
bound 0 is equivalent to negative infinity; and a poll whose captured time
precedes `due` cannot claim the new record. -/
theorem C10_add_invariant (st : Store) (now delayMs : Int) (newId d : String)
    (hd : 0 < delayMs) (hnow : 0 ≤ now)
    (hfresh : ∀ e ∈ st, e.member ≠ encode ⟨newId, now + delayMs, d⟩) :
    (addRun st now newId delayMs (some d)).2 = .ok newId ∧
    (addRun st now newId delayMs (some d)).1
      = st ++ [⟨now + delayMs, encode ⟨newId, now + delayMs, d⟩⟩] ∧
    now < now + delayMs ∧ 0 < now + delayMs ∧
    (∀ s : Store, (∀ e ∈ s, 0 ≤ e.score) →
      ∀ hi, zrangebyscore s 0 hi = zrangebyscoreNegInf s hi) ∧
    (∀ now', now' < now + delayMs →
      encode ⟨newId, now + delayMs, d⟩ ∉
        zrangebyscore (addRun st now newId delayMs (some d)).1 0 now') := by
  have hgt : ¬(delayMs ≤ 0) := by omega
  have hany : (st.any fun e =>
      decide (e.member = encode ⟨newId, now + delayMs, d⟩)) = false := by
    rw [List.any_eq_false]
    intro e he
    simp [hfresh e he]
  have h1 : (addRun st now newId delayMs (some d)).1
      = st ++ [⟨now + delayMs, encode ⟨newId, now + delayMs, d⟩⟩] := by
    simp [addRun, hgt, zadd, hany]
  refine ⟨by simp [addRun, hgt], h1, by omega, by omega, ?_, ?_⟩
  · intro s hs hi
    have hfeq : s.filter (inRange 0 hi)
        = s.filter fun e => decide (e.score ≤ hi) := by
      apply List.filter_congr
      intro e he
      have h0 := hs e he
      simp only [inRange, decide_eq_decide]
      omega
    rw [zrangebyscore, zrangebyscoreNegInf, hfeq]
  · intro now' hlt hmem
    rw [h1] at hmem
    obtain ⟨e, he, hme, h0, hn⟩ := mem_zrangebyscore.mp hmem
    rcases List.mem_append.mp he with h | h
    · exact hfresh e h hme
    · have : e = ⟨now + delayMs, encode ⟨newId, now + delayMs, d⟩⟩ := by
        simpa using h
      rw [this] at hn
      simp at hn
      omega

/-- Witness for C10 on an empty store at clock 0 with delay 5. -/
theorem C10_witness :
    (addRun [] 0 "i" 5 (some "p")).2 = .ok "i" ∧
    (addRun [] 0 "i" 5 (some "p")).1
      = [] ++ [⟨(0 : Int) + 5, encode ⟨"i", (0 : Int) + 5, "p"⟩⟩] ∧
    (0 : Int) < 0 + 5 ∧ (0 : Int) < 0 + 5 ∧
    (∀ s : Store, (∀ e ∈ s, 0 ≤ e.score) →
      ∀ hi, zrangebyscore s 0 hi = zrangebyscoreNegInf s hi) ∧
    (∀ now', now' < (0 : Int) + 5 →
      encode ⟨"i", (0 : Int) + 5, "p"⟩ ∉
        zrangebyscore (addRun [] 0 "i" 5 (some "p")).1 0 now') :=
  C10_add_invariant [] 0 5 "i" "p" (by decide) (by decide)
    (by intro e he; simp at he)

/-- C5: `start()` on an engine whose store connection is not yet established
returns the failure indicator `false` — not an exception — and registers no
timer; on a connected client it returns `true` and registers a fresh
recurring timer whose handle it stores. -/
theorem C5_start_guard (s : LState) (c : Client)
    (hc : s.eng.redisClient = some c) :
    (c.isReady = false → start s = .ok (s, false)) ∧
    (c.isReady = true →
      start s = .ok
        ({ eng := { s.eng with pollIntervalId := some s.timers.nextId },
           timers := { active := s.timers.active ++ [s.timers.nextId],
                       nextId := s.timers.nextId + 1 } }, true)) := by
  constructor
  · intro h
    simp [start, hc, h]
  · intro h
    simp [start, hc, h, setInterval]

/-- Witness for C5: a not-ready client fails without a timer; a ready client
starts one. -/
theorem C5_witness :
    start ⟨⟨true, some ⟨false⟩, none⟩, ⟨[], 0⟩⟩
      = .ok (⟨⟨true, some ⟨false⟩, none⟩, ⟨[], 0⟩⟩, false) ∧
    start ⟨⟨true, some ⟨true⟩, none⟩, ⟨[], 0⟩⟩
      = .ok (⟨⟨true, some ⟨true⟩, some 0⟩, ⟨[0], 1⟩⟩, true) :=
  ⟨(C5_start_guard ⟨⟨true, some ⟨false⟩, none⟩, ⟨[], 0⟩⟩ ⟨false⟩ rfl).1 rfl,
   (C5_start_guard ⟨⟨true, some ⟨true⟩, none⟩, ⟨[], 0⟩⟩ ⟨true⟩ rfl).2 rfl⟩

/-- C6 as stated is false: `close()` is not safe to call multiple times on a
self-contained engine — the first `close()` nulls the client, and the second
one throws a type error reading `isReady` of the nulled client. -/
theorem C6_counterexample :
    close ⟨⟨true, some ⟨true⟩, none⟩, ⟨[], 0⟩⟩
      = .ok ⟨⟨true, none, none⟩, ⟨[], 0⟩⟩ ∧
    close ⟨⟨true, none, none⟩, ⟨[], 0⟩⟩ = .error .typeError :=
  ⟨rfl, rfl⟩

/-- C6 (amended): `close()` stops polling first; when the engine owns the
connection (self-contained) and it is established, `close()` disconnects it
and nulls the client reference; an externally supplied connection is left
untouched and for such engines `close()` is idempotent; but a second
`close()` on a self-contained engine whose first `close()` disconnected
throws a type error on the nulled client instead of succeeding. -/
theorem C6_amended_close (s : LState) (c : Client) :
    (∀ s', close s = .ok s' → s'.eng.pollIntervalId = none) ∧
    (s.eng.selfContainedResis = true → s.eng.redisClient = some c →
      c.isReady = true →
      close s = .ok { stop s with eng.redisClient := none } ∧
      close { stop s with eng.redisClient := none } = .error .typeError) ∧
    (s.eng.selfContainedResis = false →
      close s = .ok (stop s) ∧ close (stop s) = .ok (stop s)) := by
  refine ⟨?_, ?_, ?_⟩
  · intro s' h
    rw [close] at h
    split at h
    · split at h
      · cases h
      · split at h
        · exact (Except.ok.inj h) ▸ rfl
        · exact (Except.ok.inj h) ▸ rfl
    · exact (Except.ok.inj h) ▸ rfl
  · intro hsc hcl hr
    constructor
    · simp [close, stop, hsc, hcl, hr]
    · simp [close, stop, hsc, clearInterval]
  · intro hsc
    constructor
    · simp [close, stop, clearInterval, hsc]
    · simp [close, stop, clearInterval, hsc]

/-- Witness for the amended C6 on a self-contained connected engine. -/
theorem C6_witness :
    (∀ s', close ⟨⟨true, some ⟨true⟩, some 0⟩, ⟨[0], 1⟩⟩ = .ok s' →
      s'.eng.pollIntervalId = none) ∧
    ((true : Bool) = true → some (⟨true⟩ : Client) = some ⟨true⟩ →
      (true : Bool) = true →
      close ⟨⟨true, some ⟨true⟩, some 0⟩, ⟨[0], 1⟩⟩
        = .ok { stop ⟨⟨true, some ⟨true⟩, some 0⟩, ⟨[0], 1⟩⟩ with
                  eng.redisClient := none } ∧
      close { stop ⟨⟨true, some ⟨true⟩, some 0⟩, ⟨[0], 1⟩⟩ with
                eng.redisClient := none }
        = .error .typeError) ∧
    ((true : Bool) = false →
      close ⟨⟨true, some ⟨true⟩, some 0⟩, ⟨[0], 1⟩⟩
        = .ok (stop ⟨⟨true, some ⟨true⟩, some 0⟩, ⟨[0], 1⟩⟩) ∧
      close (stop ⟨⟨true, some ⟨true⟩, some 0⟩, ⟨[0], 1⟩⟩)
        = .ok (stop ⟨⟨true, some ⟨true⟩, some 0⟩, ⟨[0], 1⟩⟩)) :=
  C6_amended_close ⟨⟨true, some ⟨true⟩, some 0⟩, ⟨[0], 1⟩⟩ ⟨true⟩

/-- C7 as stated is false: `start()` while already polling does not clear
the previous timer.  After a second `start()` both intervals are active, so
the engine does not leave exactly one active timer. -/
theorem C7_counterexample :
    start ⟨⟨true, some ⟨true⟩, none⟩, ⟨[], 0⟩⟩
      = .ok (⟨⟨true, some ⟨true⟩, some 0⟩, ⟨[0], 1⟩⟩, true) ∧
    start ⟨⟨true, some ⟨true⟩, some 0⟩, ⟨[0], 1⟩⟩
      = .ok (⟨⟨true, some ⟨true⟩, some 1⟩, ⟨[0, 1], 2⟩⟩, true) ∧
    ([0, 1] : List Nat).length ≠ 1 :=
  ⟨rfl, rfl, by decide⟩

/-- C7 (amended): calling `start()` while already polling registers an
additional recurring timer and overwrites the stored handle with the new
timer's id; the previously created timer is not cleared and stays active, so
the number of active timers grows by one. -/
theorem C7_amended_restart (s : LState) (c : Client) (oldId : Nat)
    (hc : s.eng.redisClient = some c) (hr : c.isReady = true)
    (_hp : s.eng.pollIntervalId = some oldId)
    (ha : oldId ∈ s.timers.active) :
    ∃ s', start s = .ok (s', true) ∧
      s'.eng.pollIntervalId = some s.timers.nextId ∧
      oldId ∈ s'.timers.active ∧
      s'.timers.active.length = s.timers.active.length + 1 := by
  refine ⟨{ eng := { s.eng with pollIntervalId := some s.timers.nextId },
            timers := { active := s.timers.active ++ [s.timers.nextId],
                        nextId := s.timers.nextId + 1 } }, ?_, rfl, ?_, ?_⟩
  · simp [start, hc, hr, setInterval]
  · exact List.mem_append_left _ ha
  · simp

/-- Witness for the amended C7 on an engine already holding timer 0. -/
theorem C7_witness :
    ∃ s', start ⟨⟨true, some ⟨true⟩, some 0⟩, ⟨[0], 1⟩⟩ = .ok (s', true) ∧
      s'.eng.pollIntervalId = some 1 ∧
      0 ∈ s'.timers.active ∧
      s'.timers.active.length = 2 :=
  C7_amended_restart ⟨⟨true, some ⟨true⟩, some 0⟩, ⟨[0], 1⟩⟩ ⟨true⟩ 0
    rfl rfl rfl (by decide)

end DelayedTasks
